import Mathlib

/-
Shallow embedding of the brewinfo package analyzer
(src/brewinfo.py and src/brewinfo_optimized.py).

External collaborators (the brew command line tool and the remote JSON API)
are modelled as oracles passed in explicitly; JSON responses are modelled at
the level the Python code inspects them (a decoded array of objects with an
identifying key field and optional metadata fields).
-/

namespace BrewInfo

/-- Mirror of the Python dataclass PackageInfo (brewinfo.py lines 22-31,
brewinfo_optimized.py lines 21-30). -/
structure PackageInfo where
  name : String
  description : String
  url : String
  build_dependencies : List String
  runtime_dependencies : List String
  is_cask : Bool := false
  deriving DecidableEq

/-- One decoded JSON object of a brew info response or API manifest.
`key` is the value of its identifying field (name for formulas, token for
casks).  The metadata fields are Option-valued because the Python code reads
them with dict.get and a default. -/
structure Entry where
  key : String
  desc : Option String := none
  homepage : Option String := none
  build_dependencies : Option (List String) := none
  dependencies : Option (List String) := none
  deriving DecidableEq

/-- Outcome of one `brew info --json [...]` invocation, as the Python code
distinguishes them: `failed` is a CalledProcessError (run_brew_command
returns the empty string), `empty` is an empty stdout, `malformed` is output
that raises json.JSONDecodeError (or lacks the key field, raising KeyError),
`ok` is a decoded JSON array. -/
inductive InfoResult where
  | failed
  | empty
  | malformed
  | ok (entries : List Entry)
  deriving DecidableEq

/-- The Python dict comprehension left to right over a decoded array
(for example formula_data = curly-braces of pkg name to pkg,
brewinfo_optimized.py line 164): a later entry with the same key wins. -/
def dictOfEntries (entries : List Entry) : String → Option Entry :=
  fun k => entries.foldl (fun acc e => if e.key = k then some e else acc) none

/-- Formula record construction shared by all three acquisition paths
(brewinfo.py lines 102-116, brewinfo_optimized.py lines 121-137 and
166-184): description and homepage default, dependency lists read from the
entry with empty-list defaults. -/
def mkFormulaInfo (e : Entry) (nm : String) : PackageInfo :=
  { name := nm
    description := e.desc.getD "No description available"
    url := e.homepage.getD ""
    build_dependencies := e.build_dependencies.getD []
    runtime_dependencies := e.dependencies.getD []
    is_cask := false }

/-- Cask record construction shared by all three acquisition paths
(brewinfo.py lines 96-101, brewinfo_optimized.py lines 113-120 and 203-217):
dependency lists are hard-coded empty. -/
def mkCaskInfo (e : Entry) (nm : String) : PackageInfo :=
  { name := nm
    description := e.desc.getD "No description available"
    url := e.homepage.getD ""
    build_dependencies := []
    runtime_dependencies := []
    is_cask := true }

/-- BrewAnalyzer.parse_brew_info (brewinfo.py lines 76-120) given the decoded
outcome of its single brew info call: empty output, undecodable output and
an empty array all yield None; otherwise the first element of the array is
used regardless of its key. -/
def parseInfoOutput (r : InfoResult) (nm : String) (k : Bool) : Option PackageInfo :=
  match r with
  | .failed => none
  | .empty => none
  | .malformed => none
  | .ok [] => none
  | .ok (e :: _) => some (if k then mkCaskInfo e nm else mkFormulaInfo e nm)

/-- Python dict insertion d[k] = v: an existing key keeps its position and
gets the new value, a new key is appended.  Models self.packages and the
dict comprehensions. -/
def dictInsert {β : Type} (d : List (String × β)) (k : String) (v : β) : List (String × β) :=
  match d with
  | [] => [(k, v)]
  | (k', v') :: rest => if k' = k then (k, v) :: rest else (k', v') :: dictInsert rest k v

/-- Python dict lookup d[k] / `k in d` for dicts represented as key-unique
association lists. -/
def dictGet {β : Type} (d : List (String × β)) (k : String) : Option β :=
  (d.find? (fun p => p.1 == k)).map Prod.snd

/-- The batch CLI oracle: given the name list and the kind flag of one
`brew info --json [--cask] name...` invocation, its decoded outcome. -/
def BatchOracle : Type := List String → Bool → InfoResult

/-- The `if formulas:` block of parse_brew_info_batch
(brewinfo_optimized.py lines 157-191): one query for the whole formula
group; an ok response is demultiplexed by name (None for requested names
without an entry), anything else degrades the whole group to None. -/
def formulaBranch (o : BatchOracle) (formulas : List String) : List (Option PackageInfo) :=
  if formulas.isEmpty then [] else
    match o formulas false with
    | .ok entries => formulas.map (fun nm => (dictOfEntries entries nm).map (mkFormulaInfo · nm))
    | _ => formulas.map (fun _ => none)

/-- The `if casks:` block of parse_brew_info_batch
(brewinfo_optimized.py lines 194-224), demultiplexing by token. -/
def caskBranch (o : BatchOracle) (casks : List String) : List (Option PackageInfo) :=
  if casks.isEmpty then [] else
    match o casks true with
    | .ok entries => casks.map (fun nm => (dictOfEntries entries nm).map (mkCaskInfo · nm))
    | _ => casks.map (fun _ => none)

/-- OptimizedBrewAnalyzer.parse_brew_info_batch (brewinfo_optimized.py lines
143-226): split the chunk into formulas and casks, run the formula block and
then the cask block; results is the concatenation of the two blocks, formula
results in request order before cask results in request order. -/
def parse_brew_info_batch (o : BatchOracle) (packages : List (String × Bool)) :
    List (Option PackageInfo) :=
  if packages.isEmpty then [] else
  formulaBranch o ((packages.filter (fun p => !p.2)).map Prod.fst) ++
    caskBranch o ((packages.filter (fun p => p.2)).map Prod.fst)

/-- The contiguous batches installed_list[i : i + B] produced by the loop
`for i in range(0, len(installed_list), batch_size)`
(brewinfo_optimized.py lines 294-295): the loop has ceil(len/B) iterations
with start indices 0, B, 2B, ..., and installed_list[i : i + B] is
(l.drop i).take B. -/
def chunkList (B : Nat) (l : List α) : List (List α) :=
  (List.range ((l.length + B - 1) / B)).map (fun i => (l.drop (i * B)).take B)

/-- The insertion loop `for (package_name, _), pkg_info in zip(batch,
batch_results): if pkg_info: self.packages[package_name] = pkg_info`
(brewinfo_optimized.py lines 308-310), over an explicit request/result pair
list. -/
def insertResults (cat : List (String × PackageInfo))
    (prs : List ((String × Bool) × Option PackageInfo)) : List (String × PackageInfo) :=
  prs.foldl
    (fun acc pr => match pr.2 with
      | some info => dictInsert acc pr.1.1 info
      | none => acc) cat

/-- One iteration of the batch loop: query the chunk and insert its
resolved records. -/
def processChunk (o : BatchOracle) (cat : List (String × PackageInfo))
    (c : List (String × Bool)) : List (String × PackageInfo) :=
  insertResults cat (c.zip (parse_brew_info_batch o c))

/-- The whole batch CLI path of OptimizedBrewAnalyzer.analyze_packages
(brewinfo_optimized.py lines 289-310): the catalog self.packages after all
chunks are processed, starting from the fresh analyzer's empty dict. -/
def analyzeBatchCat (o : BatchOracle) (installed : List (String × Bool)) (B : Nat) :
    List (String × PackageInfo) :=
  (chunkList B installed).foldl (processChunk o) []

/-- The inner loops of build_reverse_dependencies: for each dep in a
dependency list, self.reverse_dependencies[dep].add(pkg_name)
(brewinfo.py lines 126-131, brewinfo_optimized.py lines 232-237). -/
def addRevDeps (rev : String → Finset String) (deps : List String) (nm : String) :
    String → Finset String :=
  deps.foldl (fun r dep => fun d => if d = dep then insert nm (r d) else r d) rev

/-- build_reverse_dependencies (brewinfo.py lines 122-131,
brewinfo_optimized.py lines 228-237): iterate the packages dict and record,
for every build and then every runtime dependency, the package key in the
dependency's reverse set.  The defaultdict of sets starts empty on a fresh
analyzer and is modelled as a total function into Finset String. -/
def build_reverse_dependencies (cat : List (String × PackageInfo)) :
    String → Finset String :=
  cat.foldl
    (fun rev entry =>
      addRevDeps (addRevDeps rev entry.2.build_dependencies entry.1)
        entry.2.runtime_dependencies entry.1)
    (fun _ => ∅)

/-- The analyzer state read by check_dependency_status and the rendering
code: the packages dict and the installed-name set built by
analyze_packages. -/
structure AnalyzerView where
  packages : List (String × PackageInfo)
  installed_packages : Finset String

/-- check_dependency_status (brewinfo.py lines 133-137,
brewinfo_optimized.py lines 239-243): a membership test against
self.installed_packages. -/
def check_dependency_status (s : AnalyzerView) (dep_name : String) : String :=
  if dep_name ∈ s.installed_packages then "✅" else "❌"

/-- get_installed_packages (brewinfo.py lines 59-74, brewinfo_optimized.py
lines 61-76) given the line lists of the two brew list invocations: blank
lines are dropped, formulas are listed first with flag false, casks after
with flag true. -/
def installedFromLists (formulaLines caskLines : List String) : List (String × Bool) :=
  (formulaLines.filter (fun s => s ≠ "")).map (fun pkg => (pkg, false)) ++
    (caskLines.filter (fun s => s ≠ "")).map (fun cask => (cask, true))

/-- The external world of one OptimizedBrewAnalyzer run: the two brew list
outputs (already split into lines), the batch CLI oracle, and the remote
API fetch outcome — some is the pair of decoded manifest arrays, none is a
requests.RequestException (network or decode failure). -/
structure OptWorld where
  listFormula : List String
  listCask : List String
  info : BatchOracle
  api : Option (List Entry × List Entry)

/-- OptimizedBrewAnalyzer.fetch_api_data (brewinfo_optimized.py lines
78-106): on success, index each manifest array by its key field via a dict
comprehension; on RequestException, report two empty dicts. -/
def fetch_api_data (api : Option (List Entry × List Entry)) :
    List (String × Entry) × List (String × Entry) :=
  match api with
  | some (fs, cs) =>
      (fs.foldl (fun d e => dictInsert d e.key e) [],
       cs.foldl (fun d e => dictInsert d e.key e) [])
  | none => ([], [])

/-- OptimizedBrewAnalyzer.parse_api_data (brewinfo_optimized.py lines
108-141): look the name up in the manifest dict of its kind; absence is
None, otherwise build the record for the kind. -/
def parse_api_data (package_name : String) (is_cask : Bool)
    (formulas casks : List (String × Entry)) : Option PackageInfo :=
  if is_cask then
    (dictGet casks package_name).map (mkCaskInfo · package_name)
  else
    (dictGet formulas package_name).map (mkFormulaInfo · package_name)

/-- The API loop of analyze_packages (brewinfo_optimized.py lines 279-284):
parse each installed identity from the cached manifests and insert the
resolved records into the packages dict. -/
def apiLoop (installed : List (String × Bool))
    (formulas casks : List (String × Entry)) : List (String × PackageInfo) :=
  installed.foldl
    (fun cat p => match parse_api_data p.1 p.2 formulas casks with
      | some info => dictInsert cat p.1 info
      | none => cat) []

/-- OptimizedBrewAnalyzer.analyze_packages (brewinfo_optimized.py lines
257-316), producing the final packages dict: enumerate, stop early when
nothing is installed, use the API manifests when requested and nonempty,
otherwise (including the fallback after an unavailable API) run the batch
CLI path. -/
def analyze_packages_opt (w : OptWorld) (use_api : Bool) (B : Nat) :
    List (String × PackageInfo) :=
  let installed := installedFromLists w.listFormula w.listCask
  if installed.isEmpty then [] else
  if use_api then
    let fc := fetch_api_data w.api
    if fc.1.isEmpty ∧ fc.2.isEmpty then
      analyzeBatchCat w.info installed B
    else
      apiLoop installed fc.1 fc.2
  else
    analyzeBatchCat w.info installed B

/-- One full optimized run: the packages dict and the reverse dependency
index built from it (brewinfo_optimized.py lines 312-313). -/
def fullRunOpt (w : OptWorld) (use_api : Bool) (B : Nat) :
    List (String × PackageInfo) × (String → Finset String) :=
  let cat := analyze_packages_opt w use_api B
  (cat, build_reverse_dependencies cat)

/-- The external world of one BrewAnalyzer (single-query) run: whether the
brew binary is absent (FileNotFoundError on every invocation), the two brew
list outcomes (none is a CalledProcessError, whose output is empty), and
the per-package info outcome. -/
structure World where
  brewAbsent : Bool
  listFormulaRes : Option (List String)
  listCaskRes : Option (List String)
  infoRes : String → Bool → InfoResult

/-- run_brew_command for the two list invocations (brewinfo.py lines
42-57): FileNotFoundError exits the program (modelled as Except.error),
CalledProcessError prints and returns the empty output. -/
def runBrewList (w : World) (res : Option (List String)) : Except Unit (List String) :=
  if w.brewAbsent then .error () else .ok (res.getD [])

/-- run_brew_command for one info invocation: FileNotFoundError exits,
CalledProcessError yields empty output (InfoResult.failed). -/
def runBrewInfo (w : World) (nm : String) (k : Bool) : Except Unit InfoResult :=
  if w.brewAbsent then .error () else .ok (w.infoRes nm k)

/-- The per-package loop of BrewAnalyzer.analyze_packages (brewinfo.py
lines 166-172): call parse_brew_info for each installed identity in order,
threading the possibility of a fatal exit. -/
def resolveAll (w : World) : List (String × Bool) →
    Except Unit (List ((String × Bool) × Option PackageInfo))
  | [] => .ok []
  | p :: rest => do
    let r ← runBrewInfo w p.1 p.2
    let rs ← resolveAll w rest
    .ok ((p, parseInfoOutput r p.1 p.2) :: rs)

/-- BrewAnalyzer.analyze_packages (brewinfo.py lines 151-177): enumerate
the installed identities (fatal if brew is absent), return the empty state
when nothing is installed, otherwise resolve every identity one by one,
keep the successful records in the packages dict and build the reverse
index. -/
def analyze_packages_single (w : World) :
    Except Unit (List (String × PackageInfo) × Finset String × (String → Finset String)) := do
  let fLines ← runBrewList w w.listFormulaRes
  let cLines ← runBrewList w w.listCaskRes
  let installed := installedFromLists fLines cLines
  if installed.isEmpty then
    .ok ([], ∅, fun _ => ∅)
  else do
    let installedSet := (installed.map Prod.fst).toFinset
    let results ← resolveAll w installed
    let cat := results.foldl
      (fun acc pr => match pr.2 with
        | some info => dictInsert acc pr.1.1 info
        | none => acc) []
    .ok (cat, installedSet, build_reverse_dependencies cat)

/-- Ceiling division, used to state the batch query-count claims. -/
def ceilDiv (a b : Nat) : Nat := (a + b - 1) / b

/-- How many external queries parse_brew_info_batch issues for one chunk:
one per nonempty kind group (brewinfo_optimized.py lines 157-159 and
194-196). -/
def chunkQueryCount (c : List (String × Bool)) : Nat :=
  (if (c.filter (fun p => !p.2)).isEmpty then 0 else 1) +
    (if (c.filter (fun p => p.2)).isEmpty then 0 else 1)

/-- Total number of external metadata queries issued by the batch CLI path
for a given installed list and batch size. -/
def batchQueryCount (l : List (String × Bool)) (B : Nat) : Nat :=
  ((chunkList B l).map chunkQueryCount).sum

/-- The name groups actually sent to brew by one chunk: the formula group
when nonempty, then the cask group when nonempty. -/
def chunkQueries (c : List (String × Bool)) : List (List (String × Bool)) :=
  (if (c.filter (fun p => !p.2)).isEmpty then [] else [c.filter (fun p => !p.2)]) ++
    (if (c.filter (fun p => p.2)).isEmpty then [] else [c.filter (fun p => p.2)])

/-- All query groups issued by the batch CLI path, in issue order. -/
def issuedBatches (l : List (String × Bool)) (B : Nat) : List (List (String × Bool)) :=
  ((chunkList B l).map chunkQueries).flatten

lemma mem_addRevDeps (rev : String → Finset String) (deps : List String)
    (nm m d : String) :
    m ∈ addRevDeps rev deps nm d ↔ m ∈ rev d ∨ (d ∈ deps ∧ m = nm) := by
  induction deps generalizing rev with
  | nil => simp [addRevDeps]
  | cons a as ih =>
    simp only [addRevDeps, List.foldl_cons] at ih ⊢
    rw [ih]
    by_cases hda : d = a
    · subst hda
      simp [Finset.mem_insert]
      tauto
    · simp [hda]

lemma mem_foldl_rev (cat : List (String × PackageInfo))
    (rev₀ : String → Finset String) (m d : String) :
    m ∈ (cat.foldl
      (fun rev e =>
        addRevDeps (addRevDeps rev e.2.build_dependencies e.1)
          e.2.runtime_dependencies e.1) rev₀) d ↔
      m ∈ rev₀ d ∨
        ∃ e ∈ cat, e.1 = m ∧
          (d ∈ e.2.build_dependencies ∨ d ∈ e.2.runtime_dependencies) := by
  induction cat generalizing rev₀ with
  | nil => simp
  | cons e es ih =>
    simp only [List.foldl_cons]
    rw [ih]
    simp only [mem_addRevDeps, List.mem_cons]
    constructor
    · rintro (((h | ⟨hd, rfl⟩) | ⟨hd, rfl⟩) | ⟨x, hx, hxm, hxd⟩)
      · exact Or.inl h
      · exact Or.inr ⟨e, Or.inl rfl, rfl, Or.inl hd⟩
      · exact Or.inr ⟨e, Or.inl rfl, rfl, Or.inr hd⟩
      · exact Or.inr ⟨x, Or.inr hx, hxm, hxd⟩
    · rintro (h | ⟨x, (rfl | hx), hxm, hxd⟩)
      · exact Or.inl (Or.inl (Or.inl h))
      · rcases hxd with hd | hd
        · exact Or.inl (Or.inl (Or.inr ⟨hd, hxm.symm⟩))
        · exact Or.inl (Or.inr ⟨hd, hxm.symm⟩)
      · exact Or.inr ⟨x, hx, hxm, hxd⟩

/-- Membership in the built reverse index, characterized over the catalog:
a name m is recorded under d exactly when some catalog entry keyed m lists
d among its build or runtime dependencies. -/
lemma mem_build_reverse_dependencies (cat : List (String × PackageInfo))
    (m d : String) :
    m ∈ build_reverse_dependencies cat d ↔
      ∃ e ∈ cat, e.1 = m ∧
        (d ∈ e.2.build_dependencies ∨ d ∈ e.2.runtime_dependencies) := by
  have h := mem_foldl_rev cat (fun _ => ∅) m d
  simpa [build_reverse_dependencies] using h

lemma nodup_keys_unique {β : Type} {l : List (String × β)}
    (h : (l.map Prod.fst).Nodup) {a : String} {b c : β}
    (hb : (a, b) ∈ l) (hc : (a, c) ∈ l) : b = c := by
  induction l with
  | nil => cases hb
  | cons x xs ih =>
    simp only [List.map_cons, List.nodup_cons] at h
    rcases List.mem_cons.mp hb with rfl | hb'
    · rcases List.mem_cons.mp hc with h1 | hc'
      · exact (congrArg Prod.snd h1.symm)
      · exact absurd (List.mem_map_of_mem Prod.fst hc') h.1
    · rcases List.mem_cons.mp hc with rfl | hc'
      · exact absurd (List.mem_map_of_mem Prod.fst hb') h.1
      · exact ih h.2 hb' hc'

/-- C1: for every catalog (a key-unique packages dict whose records carry
their own key as name, as the analyzers maintain), after
build_reverse_dependencies runs on it from the fresh empty index, the
reverse index is exactly the transpose of the build+runtime dependency
relation: a name D is among a record's dependencies iff that record's name
is a member of the reverse set of D, with no extraneous entries. -/
theorem C1_reverse_index_is_transpose (cat : List (String × PackageInfo))
    (hkeys : (cat.map Prod.fst).Nodup)
    (hnames : ∀ e ∈ cat, e.2.name = e.1) :
    ∀ e ∈ cat, ∀ D : String,
      (D ∈ e.2.build_dependencies ∨ D ∈ e.2.runtime_dependencies) ↔
        e.2.name ∈ build_reverse_dependencies cat D := by
  intro e he D
  rw [mem_build_reverse_dependencies]
  constructor
  · intro h
    exact ⟨e, he, (hnames e he).symm, h⟩
  · rintro ⟨⟨x1, x2⟩, hx, hxm, hxd⟩
    have h1 : x1 = e.1 := by simpa using hxm.trans (hnames e he)
    rw [h1] at hx
    have h2 : x2 = e.2 := nodup_keys_unique hkeys hx (by simpa using he)
    rw [h2] at hxd
    exact hxd

/-- A two-entry catalog used to witness C1: a depends at runtime on b. -/
def sampleInfoA : PackageInfo :=
  { name := "a", description := "pkg a", url := "",
    build_dependencies := [], runtime_dependencies := ["b"], is_cask := false }

/-- Second sample record, no dependencies. -/
def sampleInfoB : PackageInfo :=
  { name := "b", description := "pkg b", url := "",
    build_dependencies := [], runtime_dependencies := [], is_cask := false }

/-- Witness for C1 on the concrete two-entry catalog, at record a and
dependency name b. -/
theorem C1_reverse_index_is_transpose_witness :
    ("b" ∈ sampleInfoA.build_dependencies ∨ "b" ∈ sampleInfoA.runtime_dependencies) ↔
      sampleInfoA.name ∈
        build_reverse_dependencies [("a", sampleInfoA), ("b", sampleInfoB)] "b" :=
  C1_reverse_index_is_transpose [("a", sampleInfoA), ("b", sampleInfoB)]
    (by decide) (by decide) ("a", sampleInfoA) (by decide) "b"

/-- C7: dependency status classification is a pure membership test against
the installed set: it answers the Present symbol exactly when the name is
installed, the Missing symbol otherwise, and its value is unchanged by
arbitrary changes to the packages dict (the Catalog). -/
theorem C7_dependency_status_pure_membership (s : AnalyzerView) (D : String) :
    (check_dependency_status s D = "✅" ↔ D ∈ s.installed_packages) ∧
    (check_dependency_status s D = "❌" ↔ D ∉ s.installed_packages) ∧
    (∀ s' : AnalyzerView, s'.installed_packages = s.installed_packages →
      check_dependency_status s' D = check_dependency_status s D) := by
  have hne : ("❌" : String) ≠ "✅" := by decide
  have h3 : ∀ s' : AnalyzerView, s'.installed_packages = s.installed_packages →
      check_dependency_status s' D = check_dependency_status s D := by
    intro s' hs
    simp only [check_dependency_status, hs]
  by_cases h : D ∈ s.installed_packages
  · exact ⟨by simp [check_dependency_status, h],
      by simp [check_dependency_status, h], h3⟩
  · exact ⟨by simp [check_dependency_status, h, hne],
      by simp [check_dependency_status, h], h3⟩

/-- C4: when the remote API is unavailable (requests.RequestException is
modelled as api = none), the API-strategy run falls back to the batch CLI
path and produces exactly the catalog the batch strategy produces on the
same installed set and the same CLI oracle; no error escapes (the function
is total). -/
theorem C4_api_unavailable_falls_back_to_batch (w : OptWorld) (B : Nat)
    (h : w.api = none) :
    analyze_packages_opt w true B = analyze_packages_opt w false B := by
  simp [analyze_packages_opt, fetch_api_data, h]

/-- Witness for C4 at a concrete world with an unreachable API. -/
theorem C4_api_unavailable_falls_back_to_batch_witness :
    analyze_packages_opt ⟨["a"], ["b"], fun _ _ => .empty, none⟩ true 50 =
      analyze_packages_opt ⟨["a"], ["b"], fun _ _ => .empty, none⟩ false 50 :=
  C4_api_unavailable_falls_back_to_batch ⟨["a"], ["b"], fun _ _ => .empty, none⟩ 50 rfl

/-- C8: both analyzers are deterministic functions of the external world:
rerunning the optimized full pass (catalog plus reverse index) or the
single-query pass on a fresh analyzer state with unchanged external data
denotes the identical result.  In this embedding every piece of analyzer
state is explicit, so there is no hidden mutable ordering dependence. -/
theorem C8_resolution_idempotent (w : OptWorld) (u : Bool) (B : Nat) (w' : World) :
    (fullRunOpt w u B).1 = (fullRunOpt w u B).1 ∧
    (∀ d, (fullRunOpt w u B).2 d = (fullRunOpt w u B).2 d) ∧
    analyze_packages_single w' = analyze_packages_single w' :=
  ⟨rfl, fun _ => rfl, rfl⟩

lemma resolveAll_ok (w : World) (h : w.brewAbsent = false)
    (l : List (String × Bool)) :
    resolveAll w l =
      .ok (l.map (fun p => (p, parseInfoOutput (w.infoRes p.1 p.2) p.1 p.2))) := by
  induction l with
  | nil => rfl
  | cons p rest ih => simp [resolveAll, runBrewInfo, h, ih, Bind.bind, Except.bind]

lemma analyze_single_ne_error (w : World) (h : w.brewAbsent = false) :
    analyze_packages_single w ≠ .error () := by
  unfold analyze_packages_single
  simp only [runBrewList, h, Bool.false_eq_true, if_false, Bind.bind, Except.bind]
  rw [resolveAll_ok w h]
  by_cases hemp :
      (installedFromLists (w.listFormulaRes.getD []) (w.listCaskRes.getD [])).isEmpty
  · simp [hemp]
  · simp [hemp, Bind.bind, Except.bind]

/-- C6: the single-query analyzer surfaces a run-terminating error (the
sys.exit on FileNotFoundError) exactly when the package manager binary
cannot be invoked at all — the condition under which enumeration itself
fails; every other failure (CalledProcessError on a list or info command,
empty, malformed or entry-less metadata responses) is absorbed and the run
completes normally, leaving only gaps in the catalog. -/
theorem C6_fatal_iff_enumeration_unavailable (w : World) :
    analyze_packages_single w = .error () ↔ w.brewAbsent = true := by
  constructor
  · intro h
    by_contra habs
    have habs' : w.brewAbsent = false := by
      revert habs
      cases w.brewAbsent <;> simp
    exact analyze_single_ne_error w habs' h
  · intro h
    simp [analyze_packages_single, runBrewList, h, Bind.bind, Except.bind]

lemma chunkList_nil {α : Type} (B : Nat) : chunkList B ([] : List α) = [] := by
  unfold chunkList
  cases B with
  | zero => simp
  | succ b =>
    rw [List.length_nil, Nat.zero_add, Nat.div_eq_of_lt (by omega)]
    rfl

lemma chunkList_cons {α : Type} {B : Nat} (hB : 0 < B) {l : List α} (hl : l ≠ []) :
    chunkList B l = l.take B :: chunkList B (l.drop B) := by
  unfold chunkList
  have hn : 0 < l.length := List.length_pos.mpr hl
  have hK : (l.length + B - 1) / B = ((l.drop B).length + B - 1) / B + 1 := by
    rw [List.length_drop]
    rcases le_or_lt l.length B with hle | hlt
    · rw [show l.length - B + B - 1 = B - 1 by omega,
        show l.length + B - 1 = (l.length - 1) + B by omega,
        Nat.add_div_right _ hB, Nat.div_eq_of_lt (by omega),
        Nat.div_eq_of_lt (by omega)]
    · rw [show l.length - B + B - 1 = l.length - 1 by omega,
        show l.length + B - 1 = (l.length - 1) + B by omega,
        Nat.add_div_right _ hB]
  rw [hK, List.range_succ_eq_map, List.map_cons]
  simp only [Nat.zero_mul, List.drop_zero]
  congr 1
  rw [List.map_map]
  apply List.map_congr_left
  intro i _
  simp only [Function.comp_apply, List.drop_drop]
  rw [Nat.succ_mul, Nat.add_comm (i * B) B, Nat.add_comm]

lemma chunk_rec {α : Type} (B : Nat) (hB : 0 < B) {P : List α → Prop} (h0 : P [])
    (h1 : ∀ l : List α, l ≠ [] → P (l.drop B) → P l) : ∀ l, P l := by
  intro l
  generalize hn : l.length = n
  induction n using Nat.strong_induction_on generalizing l with
  | _ n ih =>
    rcases eq_or_ne l [] with rfl | hne
    · exact h0
    · refine h1 l hne (ih (l.drop B).length ?_ _ rfl)
      rw [List.length_drop]
      have hpos : 0 < l.length := List.length_pos.mpr hne
      omega

lemma chunkList_flatten {α : Type} {B : Nat} (hB : 0 < B) :
    ∀ l : List α, (chunkList B l).flatten = l := by
  refine chunk_rec B hB ?_ ?_
  · simp [chunkList_nil]
  · intro l hl ih
    rw [chunkList_cons hB hl, List.flatten_cons, ih, List.take_append_drop]

lemma chunkList_subset {α : Type} {B : Nat} (hB : 0 < B) :
    ∀ l : List α, ∀ c ∈ chunkList B l, c ⊆ l := by
  refine chunk_rec B hB ?_ ?_
  · simp [chunkList_nil]
  · intro l hl ih c hc
    rw [chunkList_cons hB hl] at hc
    rcases List.mem_cons.mp hc with rfl | hc'
    · exact List.take_subset B l
    · exact fun x hx => List.drop_subset B l (ih c hc' hx)

lemma chunkList_ne_nil {α : Type} {B : Nat} (hB : 0 < B) :
    ∀ l : List α, ∀ c ∈ chunkList B l, c ≠ [] := by
  refine chunk_rec B hB ?_ ?_
  · simp [chunkList_nil]
  · intro l hl ih c hc
    rw [chunkList_cons hB hl] at hc
    rcases List.mem_cons.mp hc with rfl | hc'
    · simpa [List.take_eq_nil_iff, Nat.pos_iff_ne_zero.mp hB] using hl
    · exact ih c hc'

lemma chunkList_length {α : Type} {B : Nat} (hB : 0 < B) :
    ∀ l : List α, (chunkList B l).length = ceilDiv l.length B := by
  refine chunk_rec B hB ?_ ?_
  · rw [chunkList_nil]
    simp only [List.length_nil, ceilDiv, Nat.zero_add]
    rw [Nat.div_eq_of_lt (by omega)]
  · intro l hl ih
    rw [chunkList_cons hB hl, List.length_cons, ih, List.length_drop]
    simp only [ceilDiv]
    have hpos : 0 < l.length := List.length_pos.mpr hl
    rcases le_or_lt l.length B with hle | hlt
    · have e1 : l.length - B + B - 1 = B - 1 := by omega
      have e2 : l.length + B - 1 = (l.length - 1) + B := by omega
      rw [e1, e2, Nat.add_div_right _ hB, Nat.div_eq_of_lt (by omega),
        Nat.div_eq_of_lt (by omega)]
    · have e1 : l.length - B + B - 1 = l.length - 1 := by omega
      have e2 : l.length + B - 1 = (l.length - 1) + B := by omega
      rw [e1, e2, Nat.add_div_right _ hB]

lemma chunkList_append_of_dvd {α : Type} {B : Nat} (hB : 0 < B) :
    ∀ l₁ : List α, B ∣ l₁.length →
      ∀ l₂ : List α, chunkList B (l₁ ++ l₂) = chunkList B l₁ ++ chunkList B l₂ := by
  refine chunk_rec B hB ?_ ?_
  · intro _ l₂
    simp [chunkList_nil]
  · intro l₁ hl ihP hdvd l₂
    have hlen : B ≤ l₁.length := Nat.le_of_dvd (List.length_pos.mpr hl) hdvd
    have hd2 : B ∣ (l₁.drop B).length := by
      rw [List.length_drop]
      exact Nat.dvd_sub' hdvd dvd_rfl
    rcases eq_or_ne l₂ [] with rfl | hl₂
    · simp [chunkList_nil]
    · have happ : l₁ ++ l₂ ≠ [] := by simp [hl]
      rw [chunkList_cons hB happ, chunkList_cons hB hl]
      have htake : (l₁ ++ l₂).take B = l₁.take B := by
        rw [List.take_append_eq_append_take, Nat.sub_eq_zero_of_le hlen,
          List.take_zero, List.append_nil]
      have hdrop : (l₁ ++ l₂).drop B = l₁.drop B ++ l₂ := by
        rw [List.drop_append_eq_append_drop, Nat.sub_eq_zero_of_le hlen,
          List.drop_zero]
      rw [htake, hdrop, ihP hd2 l₂, List.cons_append]

/-- The shape the enumeration order guarantees for the installed list and
every contiguous chunk of it: some formulas followed by some casks.  Used
to state the batching claims. -/
def SplitsFormulasFirst (c : List (String × Bool)) : Prop :=
  ∃ fs cs, c = fs ++ cs ∧ (∀ p ∈ fs, p.2 = false) ∧ (∀ p ∈ cs, p.2 = true)

lemma splitsFormulasFirst_take {l : List (String × Bool)}
    (h : SplitsFormulasFirst l) (n : Nat) : SplitsFormulasFirst (l.take n) := by
  obtain ⟨fs, cs, rfl, hf, hc⟩ := h
  exact ⟨fs.take n, cs.take (n - fs.length), List.take_append_eq_append_take,
    fun p hp => hf p (List.take_subset _ _ hp),
    fun p hp => hc p (List.take_subset _ _ hp)⟩

lemma splitsFormulasFirst_drop {l : List (String × Bool)}
    (h : SplitsFormulasFirst l) (n : Nat) : SplitsFormulasFirst (l.drop n) := by
  obtain ⟨fs, cs, rfl, hf, hc⟩ := h
  exact ⟨fs.drop n, cs.drop (n - fs.length), List.drop_append_eq_append_drop,
    fun p hp => hf p (List.drop_subset _ _ hp),
    fun p hp => hc p (List.drop_subset _ _ hp)⟩

lemma chunkList_splitsFormulasFirst {B : Nat} (hB : 0 < B) :
    ∀ l : List (String × Bool), SplitsFormulasFirst l →
      ∀ c ∈ chunkList B l, SplitsFormulasFirst c := by
  refine chunk_rec B hB ?_ ?_
  · simp [chunkList_nil]
  · intro l hl ih hsp c hc
    rw [chunkList_cons hB hl] at hc
    rcases List.mem_cons.mp hc with rfl | hc'
    · exact splitsFormulasFirst_take hsp B
    · exact ih (splitsFormulasFirst_drop hsp B) c hc'

/-- What one formula group query resolves a requested name to: the record
built from the keyed entry of an ok response, nothing otherwise.  This is
the per-name view of the formula branch of parse_brew_info_batch. -/
def formulaLookup (o : BatchOracle) (names : List String) (nm : String) :
    Option PackageInfo :=
  match o names false with
  | .ok entries => (dictOfEntries entries nm).map (mkFormulaInfo · nm)
  | _ => none

/-- Per-name view of the cask branch of parse_brew_info_batch. -/
def caskLookup (o : BatchOracle) (names : List String) (nm : String) :
    Option PackageInfo :=
  match o names true with
  | .ok entries => (dictOfEntries entries nm).map (mkCaskInfo · nm)
  | _ => none

lemma filter_formulas_append {fs cs : List (String × Bool)}
    (hf : ∀ p ∈ fs, p.2 = false) (hc : ∀ p ∈ cs, p.2 = true) :
    List.filter (fun p => !p.2) (fs ++ cs) = fs := by
  rw [List.filter_append,
    List.filter_eq_self.mpr (fun a ha => by simp [hf a ha]),
    List.filter_eq_nil_iff.mpr (fun a ha => by simp [hc a ha]),
    List.append_nil]

lemma filter_casks_append {fs cs : List (String × Bool)}
    (hf : ∀ p ∈ fs, p.2 = false) (hc : ∀ p ∈ cs, p.2 = true) :
    List.filter (fun p => p.2) (fs ++ cs) = cs := by
  rw [List.filter_append,
    List.filter_eq_nil_iff.mpr (fun a ha => by simp [hf a ha]),
    List.filter_eq_self.mpr (fun a ha => hc a ha),
    List.nil_append]

lemma formulaBranch_eq_map (o : BatchOracle) (names : List String) :
    formulaBranch o names = names.map (formulaLookup o names) := by
  by_cases hn : names.isEmpty
  · rw [formulaBranch, if_pos hn, List.isEmpty_iff.mp hn]
    rfl
  · rw [formulaBranch, if_neg hn]
    cases h : o names false with
    | ok entries => exact List.map_congr_left (fun a _ => by simp [formulaLookup, h])
    | failed => exact List.map_congr_left (fun a _ => by simp [formulaLookup, h])
    | empty => exact List.map_congr_left (fun a _ => by simp [formulaLookup, h])
    | malformed => exact List.map_congr_left (fun a _ => by simp [formulaLookup, h])

lemma caskBranch_eq_map (o : BatchOracle) (names : List String) :
    caskBranch o names = names.map (caskLookup o names) := by
  by_cases hn : names.isEmpty
  · rw [caskBranch, if_pos hn, List.isEmpty_iff.mp hn]
    rfl
  · rw [caskBranch, if_neg hn]
    cases h : o names true with
    | ok entries => exact List.map_congr_left (fun a _ => by simp [caskLookup, h])
    | failed => exact List.map_congr_left (fun a _ => by simp [caskLookup, h])
    | empty => exact List.map_congr_left (fun a _ => by simp [caskLookup, h])
    | malformed => exact List.map_congr_left (fun a _ => by simp [caskLookup, h])

/-- On a formulas-first request list, parse_brew_info_batch is the list of
per-name formula lookups in request order followed by the per-name cask
lookups in request order. -/
lemma parse_batch_split (o : BatchOracle) (fs cs : List (String × Bool))
    (hf : ∀ p ∈ fs, p.2 = false) (hc : ∀ p ∈ cs, p.2 = true) :
    parse_brew_info_batch o (fs ++ cs) =
      fs.map (fun p => formulaLookup o (fs.map Prod.fst) p.1) ++
        cs.map (fun p => caskLookup o (cs.map Prod.fst) p.1) := by
  by_cases hemp : (fs ++ cs).isEmpty
  · have hnil : fs = [] ∧ cs = [] := by
      simpa [List.isEmpty_iff] using hemp
    simp [parse_brew_info_batch, hnil.1, hnil.2, formulaBranch, caskBranch]
  · rw [parse_brew_info_batch, if_neg hemp, filter_formulas_append hf hc,
      filter_casks_append hf hc, formulaBranch_eq_map, caskBranch_eq_map,
      List.map_map, List.map_map]
    rfl

lemma zip_self_map {α β : Type} (l : List α) (g : α → β) :
    l.zip (l.map g) = l.map (fun a => (a, g a)) := by
  simpa using List.zip_map' id g l

/-- On a formulas-first request list, the caller's zip of requests with
batch results pairs every request with its own per-name lookup. -/
lemma parse_batch_zip (o : BatchOracle) (fs cs : List (String × Bool))
    (hf : ∀ p ∈ fs, p.2 = false) (hc : ∀ p ∈ cs, p.2 = true) :
    (fs ++ cs).zip (parse_brew_info_batch o (fs ++ cs)) =
      fs.map (fun p => (p, formulaLookup o (fs.map Prod.fst) p.1)) ++
        cs.map (fun p => (p, caskLookup o (cs.map Prod.fst) p.1)) := by
  rw [parse_batch_split o fs cs hf hc, List.zip_append (by simp), zip_self_map,
    zip_self_map]

/-- parse_brew_info_batch returns exactly one result slot per requested
package, for every request list. -/
lemma parse_batch_length (o : BatchOracle) (pkgs : List (String × Bool)) :
    (parse_brew_info_batch o pkgs).length = pkgs.length := by
  by_cases hemp : pkgs.isEmpty
  · have : pkgs = [] := by simpa [List.isEmpty_iff] using hemp
    simp [this, parse_brew_info_batch]
  · rw [parse_brew_info_batch, if_neg hemp, List.length_append,
      formulaBranch_eq_map, caskBranch_eq_map, List.length_map, List.length_map,
      List.length_map, List.length_map]
    have hperm := (List.filter_append_perm (fun p : String × Bool => !p.2) pkgs).length_eq
    rw [List.length_append] at hperm
    simpa [Bool.not_not] using hperm

lemma mem_keys_dictInsert {β : Type} (d : List (String × β)) (k n : String) (v : β) :
    n ∈ (dictInsert d k v).map Prod.fst ↔ n = k ∨ n ∈ d.map Prod.fst := by
  induction d with
  | nil => simp [dictInsert]
  | cons x xs ih =>
    obtain ⟨k', v'⟩ := x
    rw [dictInsert]
    by_cases hk : k' = k
    · rw [if_pos hk]
      subst hk
      simp
    · rw [if_neg hk]
      simp only [List.map_cons, List.mem_cons, ih]
      tauto

lemma mem_dictInsert {β : Type} {d : List (String × β)} {k n : String} {v w : β} :
    (n, w) ∈ dictInsert d k v → (n = k ∧ w = v) ∨ (n, w) ∈ d := by
  induction d with
  | nil =>
    intro h
    rw [dictInsert] at h
    rcases List.mem_singleton.mp h with heq
    left
    exact ⟨congrArg Prod.fst heq, congrArg Prod.snd heq⟩
  | cons x xs ih =>
    obtain ⟨k', v'⟩ := x
    intro h
    rw [dictInsert] at h
    by_cases hk : k' = k
    · rw [if_pos hk] at h
      rcases List.mem_cons.mp h with heq | h'
      · left
        exact ⟨congrArg Prod.fst heq, congrArg Prod.snd heq⟩
      · right
        exact List.mem_cons_of_mem _ h'
    · rw [if_neg hk] at h
      rcases List.mem_cons.mp h with heq | h'
      · right
        exact List.mem_cons.mpr (Or.inl heq)
      · rcases ih h' with h1 | h2
        · exact Or.inl h1
        · exact Or.inr (List.mem_cons_of_mem _ h2)

lemma forall_dictInsert {β : Type} (P : String × β → Prop)
    {d : List (String × β)} {k : String} {v : β}
    (hd : ∀ e ∈ d, P e) (hkv : P (k, v)) : ∀ e ∈ dictInsert d k v, P e := by
  intro e he
  obtain ⟨n, w⟩ := e
  rcases mem_dictInsert he with ⟨rfl, rfl⟩ | h
  · exact hkv
  · exact hd _ h

lemma insertResults_keys (prs : List ((String × Bool) × Option PackageInfo)) :
    ∀ (cat : List (String × PackageInfo)) (n : String),
      n ∈ (insertResults cat prs).map Prod.fst ↔
        n ∈ cat.map Prod.fst ∨ ∃ pr ∈ prs, pr.1.1 = n ∧ pr.2.isSome = true := by
  induction prs with
  | nil => simp [insertResults]
  | cons pr rest ih =>
    intro cat n
    have hstep : insertResults cat (pr :: rest) =
        insertResults (match pr.2 with
          | some info => dictInsert cat pr.1.1 info
          | none => cat) rest := by
      rw [insertResults, insertResults, List.foldl_cons]
    rw [hstep]
    cases hpr : pr.2 with
    | none =>
      rw [ih]
      simp only [List.exists_mem_cons_iff, hpr]
      simp
    | some info =>
      have hred : (match some info with
          | some i => dictInsert cat pr.1.1 i
          | none => cat) = dictInsert cat pr.1.1 info := rfl
      rw [hred, ih, mem_keys_dictInsert]
      simp only [List.exists_mem_cons_iff, hpr]
      constructor
      · rintro ((rfl | h) | h)
        · exact Or.inr (Or.inl ⟨rfl, rfl⟩)
        · exact Or.inl h
        · exact Or.inr (Or.inr h)
      · rintro (h | ⟨heq, _⟩ | h)
        · exact Or.inl (Or.inr h)
        · exact Or.inl (Or.inl heq.symm)
        · exact Or.inr h

lemma insertResults_mem (prs : List ((String × Bool) × Option PackageInfo)) :
    ∀ (cat : List (String × PackageInfo)) (n : String) (w : PackageInfo),
      (n, w) ∈ insertResults cat prs →
        (n, w) ∈ cat ∨ ∃ pr ∈ prs, pr.1.1 = n ∧ pr.2 = some w := by
  induction prs with
  | nil => simp [insertResults]
  | cons pr rest ih =>
    intro cat n w h
    have hstep : insertResults cat (pr :: rest) =
        insertResults (match pr.2 with
          | some info => dictInsert cat pr.1.1 info
          | none => cat) rest := by
      rw [insertResults, insertResults, List.foldl_cons]
    rw [hstep] at h
    cases hpr : pr.2 with
    | none =>
      rw [hpr] at h
      rcases ih _ _ _ h with h1 | ⟨pr', hpr', h2⟩
      · exact Or.inl h1
      · exact Or.inr ⟨pr', List.mem_cons_of_mem _ hpr', h2⟩
    | some info =>
      rw [hpr] at h
      rcases ih _ _ _ h with h1 | ⟨pr', hpr', h2⟩
      · rcases mem_dictInsert h1 with ⟨rfl, rfl⟩ | h3
        · exact Or.inr ⟨pr, List.mem_cons_self _ _, rfl, hpr⟩
        · exact Or.inl h3
      · exact Or.inr ⟨pr', List.mem_cons_of_mem _ hpr', h2⟩

lemma foldl_processChunk_keys (o : BatchOracle)
    (L : List (List (String × Bool))) :
    ∀ (cat : List (String × PackageInfo)) (n : String),
      n ∈ ((L.foldl (processChunk o) cat).map Prod.fst) ↔
        n ∈ cat.map Prod.fst ∨
          ∃ c ∈ L, ∃ pr ∈ c.zip (parse_brew_info_batch o c),
            pr.1.1 = n ∧ pr.2.isSome = true := by
  induction L with
  | nil => simp
  | cons c L' ih =>
    intro cat n
    rw [List.foldl_cons, ih, processChunk, insertResults_keys]
    simp only [List.exists_mem_cons_iff]
    constructor
    · rintro ((h | ⟨pr, hpr, h1, h2⟩) | ⟨c', hc', pr, hpr, h1, h2⟩)
      · exact Or.inl h
      · exact Or.inr (Or.inl ⟨pr, hpr, h1, h2⟩)
      · exact Or.inr (Or.inr ⟨c', hc', pr, hpr, h1, h2⟩)
    · rintro (h | ⟨pr, hpr, h1, h2⟩ | ⟨c', hc', pr, hpr, h1, h2⟩)
      · exact Or.inl (Or.inl h)
      · exact Or.inl (Or.inr ⟨pr, hpr, h1, h2⟩)
      · exact Or.inr ⟨c', hc', pr, hpr, h1, h2⟩

lemma foldl_processChunk_mem (o : BatchOracle)
    (L : List (List (String × Bool))) :
    ∀ (cat : List (String × PackageInfo)) (n : String) (w : PackageInfo),
      (n, w) ∈ L.foldl (processChunk o) cat →
        (n, w) ∈ cat ∨
          ∃ c ∈ L, ∃ pr ∈ c.zip (parse_brew_info_batch o c),
            pr.1.1 = n ∧ pr.2 = some w := by
  induction L with
  | nil => simp
  | cons c L' ih =>
    intro cat n w h
    rw [List.foldl_cons] at h
    rcases ih _ _ _ h with h1 | ⟨c', hc', pr, hpr, h2⟩
    · rcases insertResults_mem _ _ _ _ h1 with h3 | ⟨pr, hpr, h4⟩
      · exact Or.inl h3
      · exact Or.inr ⟨c, List.mem_cons_self _ _, pr, hpr, h4⟩
    · exact Or.inr ⟨c', List.mem_cons_of_mem _ hc', pr, hpr, h2⟩

/-- Which names end up as keys of the batch-path catalog: exactly the names
some chunk's zip pairs with a resolved result. -/
lemma analyzeBatchCat_keys (o : BatchOracle) (installed : List (String × Bool))
    (B : Nat) (n : String) :
    n ∈ (analyzeBatchCat o installed B).map Prod.fst ↔
      ∃ c ∈ chunkList B installed, ∃ pr ∈ c.zip (parse_brew_info_batch o c),
        pr.1.1 = n ∧ pr.2.isSome = true := by
  rw [analyzeBatchCat, foldl_processChunk_keys]
  simp

lemma formulaLookup_spec (o : BatchOracle) (names : List String) (nm : String)
    (r : PackageInfo) (h : formulaLookup o names nm = some r) :
    r.name = nm ∧ r.is_cask = false := by
  unfold formulaLookup at h
  cases ho : o names false with
  | ok entries =>
    rw [ho] at h
    rcases Option.map_eq_some'.mp h with ⟨e, _, rfl⟩
    exact ⟨rfl, rfl⟩
  | failed => rw [ho] at h; cases h
  | empty => rw [ho] at h; cases h
  | malformed => rw [ho] at h; cases h

lemma caskLookup_spec (o : BatchOracle) (names : List String) (nm : String)
    (r : PackageInfo) (h : caskLookup o names nm = some r) :
    r.name = nm ∧ r.is_cask = true ∧
      r.build_dependencies = [] ∧ r.runtime_dependencies = [] := by
  unfold caskLookup at h
  cases ho : o names true with
  | ok entries =>
    rw [ho] at h
    rcases Option.map_eq_some'.mp h with ⟨e, _, rfl⟩
    exact ⟨rfl, rfl, rfl, rfl⟩
  | failed => rw [ho] at h; cases h
  | empty => rw [ho] at h; cases h
  | malformed => rw [ho] at h; cases h

/-- The external query that parse_brew_info_batch issues for the kind-k
group of chunk c resolves name n: the response decodes and contains an
entry keyed n.  This is the success condition of one issued batch for one
of its identities. -/
def querySucceedsFor (o : BatchOracle) (c : List (String × Bool)) (k : Bool)
    (n : String) : Prop :=
  if k then
    match o ((c.filter (fun p => p.2)).map Prod.fst) true with
    | .ok entries => (dictOfEntries entries n).isSome = true
    | _ => False
  else
    match o ((c.filter (fun p => !p.2)).map Prod.fst) false with
    | .ok entries => (dictOfEntries entries n).isSome = true
    | _ => False

lemma querySucceedsFor_false_iff (o : BatchOracle) (c : List (String × Bool))
    (n : String) :
    querySucceedsFor o c false n ↔
      (formulaLookup o ((c.filter (fun p => !p.2)).map Prod.fst) n).isSome = true := by
  cases ho : o ((c.filter (fun p => !p.2)).map Prod.fst) false with
  | ok entries => simp [querySucceedsFor, formulaLookup, ho]
  | failed => simp [querySucceedsFor, formulaLookup, ho]
  | empty => simp [querySucceedsFor, formulaLookup, ho]
  | malformed => simp [querySucceedsFor, formulaLookup, ho]

lemma querySucceedsFor_true_iff (o : BatchOracle) (c : List (String × Bool))
    (n : String) :
    querySucceedsFor o c true n ↔
      (caskLookup o ((c.filter (fun p => p.2)).map Prod.fst) n).isSome = true := by
  cases ho : o ((c.filter (fun p => p.2)).map Prod.fst) true with
  | ok entries => simp [querySucceedsFor, caskLookup, ho]
  | failed => simp [querySucceedsFor, caskLookup, ho]
  | empty => simp [querySucceedsFor, caskLookup, ho]
  | malformed => simp [querySucceedsFor, caskLookup, ho]

lemma flatten_nodup_unique {β : Type} {L : List (List (String × β))}
    (hnd : ((L.map (fun c => c.map Prod.fst)).flatten).Nodup)
    {c c' : List (String × β)} (hcL : c ∈ L) (hc'L : c' ∈ L)
    {n : String} {k k' : β} (hm : (n, k) ∈ c) (hm' : (n, k') ∈ c') :
    c = c' ∧ k = k' := by
  induction L with
  | nil => cases hcL
  | cons d L' ih =>
    rw [List.map_cons, List.flatten_cons, List.nodup_append] at hnd
    obtain ⟨h1, h2, hdisj⟩ := hnd
    rcases List.mem_cons.mp hcL with rfl | hcl'
    · rcases List.mem_cons.mp hc'L with rfl | hc'l'
      · exact ⟨rfl, nodup_keys_unique h1 hm hm'⟩
      · exfalso
        have hA : n ∈ c.map Prod.fst := by
          simpa using List.mem_map_of_mem Prod.fst hm
        have hBm : n ∈ (L'.map (fun c => c.map Prod.fst)).flatten :=
          List.mem_flatten.mpr ⟨c'.map Prod.fst, List.mem_map_of_mem _ hc'l',
            by simpa using List.mem_map_of_mem Prod.fst hm'⟩
        exact hdisj hA hBm
    · rcases List.mem_cons.mp hc'L with rfl | hc'l'
      · exfalso
        have hA : n ∈ c'.map Prod.fst := by
          simpa using List.mem_map_of_mem Prod.fst hm'
        have hBm : n ∈ (L'.map (fun c => c.map Prod.fst)).flatten :=
          List.mem_flatten.mpr ⟨c.map Prod.fst, List.mem_map_of_mem _ hcl',
            by simpa using List.mem_map_of_mem Prod.fst hm⟩
        exact hdisj hA hBm
      · exact ih h2 hcl' hc'l'

lemma chunks_nodup_structure {B : Nat} (hB : 0 < B)
    {l : List (String × Bool)} (hnd : (l.map Prod.fst).Nodup) :
    (((chunkList B l).map (fun c => c.map Prod.fst)).flatten).Nodup := by
  rw [← List.map_flatten, chunkList_flatten hB]
  exact hnd

/-- Within one formulas-first chunk with distinct names, an identity is
paired with a resolved record by the caller's zip exactly when its own
kind-group query succeeded for its name. -/
lemma chunk_resolved_iff (o : BatchOracle) (fs' cs' : List (String × Bool))
    (hf : ∀ p ∈ fs', p.2 = false) (hc : ∀ p ∈ cs', p.2 = true)
    (hnd : ((fs' ++ cs').map Prod.fst).Nodup) (n : String) (k : Bool)
    (hm : (n, k) ∈ fs' ++ cs') :
    (∃ pr ∈ (fs' ++ cs').zip (parse_brew_info_batch o (fs' ++ cs')),
        pr.1.1 = n ∧ pr.2.isSome = true) ↔
      querySucceedsFor o (fs' ++ cs') k n := by
  rw [parse_batch_zip o fs' cs' hf hc]
  constructor
  · rintro ⟨pr, hpr, h1, h2⟩
    rcases List.mem_append.mp hpr with hmem | hmem
    · rcases List.mem_map.mp hmem with ⟨⟨p1, p2⟩, hp, rfl⟩
      simp only at h1 h2
      have hp2 : p2 = false := hf _ hp
      subst hp2
      subst h1
      have hk : k = false :=
        nodup_keys_unique hnd hm (List.mem_append_left _ hp)
      subst hk
      rw [querySucceedsFor_false_iff, filter_formulas_append hf hc]
      exact h2
    · rcases List.mem_map.mp hmem with ⟨⟨p1, p2⟩, hp, rfl⟩
      simp only at h1 h2
      have hp2 : p2 = true := hc _ hp
      subst hp2
      subst h1
      have hk : k = true :=
        nodup_keys_unique hnd hm (List.mem_append_right _ hp)
      subst hk
      rw [querySucceedsFor_true_iff, filter_casks_append hf hc]
      exact h2
  · intro hq
    cases k with
    | false =>
      rw [querySucceedsFor_false_iff, filter_formulas_append hf hc] at hq
      have hmf : (n, false) ∈ fs' := by
        rcases List.mem_append.mp hm with h | h
        · exact h
        · exact absurd (hc _ h) (by simp)
      exact ⟨((n, false), formulaLookup o (fs'.map Prod.fst) n),
        List.mem_append_left _ (List.mem_map.mpr ⟨(n, false), hmf, rfl⟩), rfl, hq⟩
    | true =>
      rw [querySucceedsFor_true_iff, filter_casks_append hf hc] at hq
      have hmc : (n, true) ∈ cs' := by
        rcases List.mem_append.mp hm with h | h
        · exact absurd (hf _ h) (by simp)
        · exact h
      exact ⟨((n, true), caskLookup o (cs'.map Prod.fst) n),
        List.mem_append_right _ (List.mem_map.mpr ⟨(n, true), hmc, rfl⟩), rfl, hq⟩

/-- C3: on a formulas-first installed list with distinct names and any
positive batch size, an identity ends up in the catalog exactly when the
one query issued for its own chunk and kind succeeds (decodes and contains
its entry).  Hence a malformed or empty response degrades exactly the
identities of its batch to "no record", identities of every other batch
whose queries succeed are still resolved, and no exception propagates (the
whole path is a total function). -/
theorem C3_batch_failure_degrades_only_that_batch (o : BatchOracle)
    (fs cs : List (String × Bool))
    (hf : ∀ p ∈ fs, p.2 = false) (hc : ∀ p ∈ cs, p.2 = true)
    (B : Nat) (hB : 0 < B) (hnd : ((fs ++ cs).map Prod.fst).Nodup) :
    ∀ c ∈ chunkList B (fs ++ cs), ∀ pk ∈ c,
      ((pk : String × Bool).1 ∈ (analyzeBatchCat o (fs ++ cs) B).map Prod.fst ↔
        querySucceedsFor o c pk.2 pk.1) := by
  intro c hcmem pk hpk
  obtain ⟨n, k⟩ := pk
  have hsp : SplitsFormulasFirst (fs ++ cs) := ⟨fs, cs, rfl, hf, hc⟩
  have hflat := chunks_nodup_structure hB hnd
  obtain ⟨fs', cs', hceq, hf', hc'⟩ :=
    chunkList_splitsFormulasFirst hB _ hsp c hcmem
  have hcnd : (c.map Prod.fst).Nodup :=
    (List.nodup_flatten.mp hflat).1 (c.map Prod.fst)
      (List.mem_map_of_mem _ hcmem)
  rw [analyzeBatchCat_keys]
  constructor
  · rintro ⟨c2, hc2, pr, hpr, h1, h2⟩
    have hoc : (pr.1.1, pr.1.2) ∈ c2 := by
      have := (List.of_mem_zip hpr).1
      simpa using this
    rw [h1] at hoc
    obtain ⟨rfl, _⟩ := flatten_nodup_unique hflat hc2 hcmem hoc hpk
    subst hceq
    exact (chunk_resolved_iff o fs' cs' hf' hc' hcnd n k hpk).mp
      ⟨pr, hpr, h1, h2⟩
  · intro hq
    subst hceq
    obtain ⟨pr, hpr, h1, h2⟩ :=
      (chunk_resolved_iff o fs' cs' hf' hc' hcnd n k hpk).mpr hq
    exact ⟨fs' ++ cs', hcmem, pr, hpr, h1, h2⟩

/-- Oracle used to witness C3: formula queries decode with an entry for a,
cask queries are malformed. -/
def c3Oracle : BatchOracle := fun _ k =>
  if k then .malformed else .ok [{ key := "a" }]

/-- Witness for C3: in the concrete two-identity chunk whose cask query is
malformed while the formula query succeeds, the cask identity b is in the
catalog iff its own (malformed) query succeeded. -/
theorem C3_batch_failure_degrades_only_that_batch_witness :
    (("b", true) : String × Bool).1 ∈
        (analyzeBatchCat c3Oracle [("a", false), ("b", true)] 2).map Prod.fst ↔
      querySucceedsFor c3Oracle [("a", false), ("b", true)]
        (("b", true) : String × Bool).2 (("b", true) : String × Bool).1 :=
  C3_batch_failure_degrades_only_that_batch c3Oracle [("a", false)] [("b", true)]
    (by decide) (by decide) 2 (by decide) (by decide)
    [("a", false), ("b", true)] (by decide) ("b", true) (by decide)

/-- On a formulas-first chunk, every record the caller's zip pairs with a
request carries that request's own name. -/
lemma chunk_zip_name (o : BatchOracle) (fs' cs' : List (String × Bool))
    (hf : ∀ p ∈ fs', p.2 = false) (hc : ∀ p ∈ cs', p.2 = true) :
    ∀ pr ∈ (fs' ++ cs').zip (parse_brew_info_batch o (fs' ++ cs')),
      ∀ r : PackageInfo, pr.2 = some r → r.name = pr.1.1 := by
  rw [parse_batch_zip o fs' cs' hf hc]
  intro pr hpr r hr
  rcases List.mem_append.mp hpr with hmem | hmem
  · rcases List.mem_map.mp hmem with ⟨p, _, rfl⟩
    exact (formulaLookup_spec o (fs'.map Prod.fst) p.1 r hr).1
  · rcases List.mem_map.mp hmem with ⟨p, _, rfl⟩
    exact (caskLookup_spec o (cs'.map Prod.fst) p.1 r hr).1

/-- C10 (amended): the batch resolver returns exactly one result slot per
requested package; on a formulas-first request list the positional zip
pairing assigns every returned record its own requested name; every chunk
the caller produces from a formulas-first installed list is itself
formulas-first, so the pairing is name-correct for every chunk; and
consequently every entry of the batch-path catalog maps a name to a record
carrying that very name. -/
theorem C10_batch_results_align_positionally (o : BatchOracle)
    (fs cs : List (String × Bool))
    (hf : ∀ p ∈ fs, p.2 = false) (hc : ∀ p ∈ cs, p.2 = true)
    (B : Nat) (hB : 0 < B) :
    (∀ pkgs : List (String × Bool),
        (parse_brew_info_batch o pkgs).length = pkgs.length) ∧
    (∀ pr ∈ (fs ++ cs).zip (parse_brew_info_batch o (fs ++ cs)),
        ∀ r : PackageInfo, pr.2 = some r → r.name = pr.1.1) ∧
    (∀ c ∈ chunkList B (fs ++ cs), SplitsFormulasFirst c) ∧
    (∀ e ∈ analyzeBatchCat o (fs ++ cs) B,
        (e : String × PackageInfo).2.name = e.1) := by
  refine ⟨parse_batch_length o, chunk_zip_name o fs cs hf hc,
    chunkList_splitsFormulasFirst hB _ ⟨fs, cs, rfl, hf, hc⟩, ?_⟩
  intro e he
  obtain ⟨n, w⟩ := e
  rw [analyzeBatchCat] at he
  rcases foldl_processChunk_mem o _ [] n w he with h0 | ⟨c, hcmem, pr, hpr, h1, h2⟩
  · cases h0
  · obtain ⟨fs', cs', rfl, hf', hc'⟩ :=
      chunkList_splitsFormulasFirst hB _ ⟨fs, cs, rfl, hf, hc⟩ c hcmem
    have hname := chunk_zip_name o fs' cs' hf' hc' pr hpr w h2
    exact hname.trans h1

/-- Oracle used to witness C10: both kinds decode with keyed entries. -/
def c10Oracle : BatchOracle := fun _ k =>
  if k then .ok [{ key := "b", desc := some "cask b" }]
  else .ok [{ key := "a", desc := some "formula a", dependencies := some ["z"] }]

/-- Witness for C10 at a concrete formulas-first installed list: the
catalog entry keyed a holds a record named a. -/
theorem C10_batch_results_align_positionally_witness :
    (("a", mkFormulaInfo
        { key := "a", desc := some "formula a", dependencies := some ["z"] } "a") :
      String × PackageInfo).2.name =
      (("a", mkFormulaInfo
        { key := "a", desc := some "formula a", dependencies := some ["z"] } "a") :
      String × PackageInfo).1 :=
  (C10_batch_results_align_positionally c10Oracle [("a", false)] [("b", true)]
    (by decide) (by decide) 2 (by decide)).2.2.2
    ("a", mkFormulaInfo
      { key := "a", desc := some "formula a", dependencies := some ["z"] } "a")
    (by decide)

/-- Counterexample to C10 as stated: the claim's "precisely when" direction
fails.  On the cask-first list [a cask, b formula] with empty responses the
positional pairing is (vacuously) name-correct, yet not every formula
precedes every cask. -/
theorem C10_counterexample :
    (∀ pr ∈ ([("a", true), ("b", false)] : List (String × Bool)).zip
        (parse_brew_info_batch (fun _ _ => InfoResult.empty)
          [("a", true), ("b", false)]),
      ∀ r : PackageInfo, pr.2 = some r → r.name = pr.1.1) ∧
    ¬ SplitsFormulasFirst [("a", true), ("b", false)] := by
  constructor
  · intro pr hpr r hr
    have hres : ([("a", true), ("b", false)] : List (String × Bool)).zip
        (parse_brew_info_batch (fun _ _ => InfoResult.empty)
          [("a", true), ("b", false)]) =
        [(("a", true), none), (("b", false), none)] := by decide
    rw [hres] at hpr
    simp only [List.mem_cons, List.not_mem_nil, or_false] at hpr
    rcases hpr with rfl | rfl
    · cases hr
    · cases hr
  · rintro ⟨fsx, csx, heq, hfx, hcx⟩
    cases fsx with
    | nil =>
      rw [List.nil_append] at heq
      have := hcx ("b", false) (by rw [← heq]; decide)
      exact absurd this (by decide)
    | cons f fs' =>
      rw [List.cons_append] at heq
      injection heq with h1 _
      have := hfx f (List.mem_cons_self _ _)
      rw [← h1] at this
      exact absurd this (by decide)

lemma chunkQueries_flatten (c : List (String × Bool)) :
    (chunkQueries c).flatten =
      c.filter (fun p => !p.2) ++ c.filter (fun p => p.2) := by
  unfold chunkQueries
  by_cases h1 : (c.filter (fun p => !p.2)).isEmpty <;>
    by_cases h2 : (c.filter (fun p => p.2)).isEmpty
  · rw [if_pos h1, if_pos h2, List.isEmpty_iff.mp h1, List.isEmpty_iff.mp h2]
    rfl
  · rw [if_pos h1, if_neg h2, List.isEmpty_iff.mp h1]
    simp
  · rw [if_neg h1, if_pos h2, List.isEmpty_iff.mp h2]
    simp
  · rw [if_neg h1, if_neg h2]
    simp

lemma filter_split_perm (c : List (String × Bool)) :
    (c.filter (fun p => !p.2) ++ c.filter (fun p => p.2)).Perm c := by
  have h := List.filter_append_perm (fun p : String × Bool => !p.2) c
  simpa [Bool.not_not] using h

lemma flatten_map_chunkQueries (L : List (List (String × Bool))) :
    (((L.map chunkQueries).flatten).flatten).Perm L.flatten := by
  induction L with
  | nil => simp
  | cons c L' ih =>
    simp only [List.map_cons, List.flatten_cons, List.flatten_append]
    rw [chunkQueries_flatten]
    exact (filter_split_perm c).append ih

/-- Every identity occurrence of the installed list appears in exactly one
issued query group: the concatenation of all issued groups is a permutation
of the installed list. -/
lemma issuedBatches_flatten_perm {B : Nat} (hB : 0 < B)
    (l : List (String × Bool)) : ((issuedBatches l B).flatten).Perm l := by
  unfold issuedBatches
  have h := flatten_map_chunkQueries (chunkList B l)
  rwa [chunkList_flatten hB] at h

/-- Every issued query group is single-kind. -/
lemma issuedBatches_single_kind (l : List (String × Bool)) (B : Nat) :
    ∀ q ∈ issuedBatches l B,
      (∀ x ∈ q, (x : String × Bool).2 = false) ∨ (∀ x ∈ q, x.2 = true) := by
  intro q hq
  unfold issuedBatches at hq
  rcases List.mem_flatten.mp hq with ⟨qs, hqs, hq2⟩
  rcases List.mem_map.mp hqs with ⟨c, _, rfl⟩
  unfold chunkQueries at hq2
  rcases List.mem_append.mp hq2 with h | h
  · left
    by_cases h1 : (c.filter (fun p => !p.2)).isEmpty
    · rw [if_pos h1] at h
      cases h
    · rw [if_neg h1] at h
      rcases List.mem_singleton.mp h with rfl
      intro x hx
      have := (List.mem_filter.mp hx).2
      simpa using this
  · right
    by_cases h2 : (c.filter (fun p => p.2)).isEmpty
    · rw [if_pos h2] at h
      cases h
    · rw [if_neg h2] at h
      rcases List.mem_singleton.mp h with rfl
      intro x hx
      exact (List.mem_filter.mp hx).2

lemma chunkQueryCount_eq_length (c : List (String × Bool)) :
    chunkQueryCount c = (chunkQueries c).length := by
  unfold chunkQueryCount chunkQueries
  by_cases h1 : (c.filter (fun p => !p.2)).isEmpty <;>
    by_cases h2 : (c.filter (fun p => p.2)).isEmpty <;>
      simp [h1, h2]

/-- The query count of the batch path is the number of issued query
groups. -/
lemma batchQueryCount_eq_issued (l : List (String × Bool)) (B : Nat) :
    batchQueryCount l B = (issuedBatches l B).length := by
  unfold batchQueryCount issuedBatches
  rw [List.length_flatten, List.map_map]
  congr 1
  exact List.map_congr_left (fun c _ => by
    rw [chunkQueryCount_eq_length]
    rfl)

lemma sum_map_eq_length {α : Type} (L : List α) (f : α → Nat)
    (h : ∀ c ∈ L, f c = 1) : (L.map f).sum = L.length := by
  induction L with
  | nil => rfl
  | cons c L' ih =>
    rw [List.map_cons, List.sum_cons, h c (List.mem_cons_self _ _),
      ih (fun d hd => h d (List.mem_cons_of_mem _ hd)), List.length_cons,
      Nat.add_comm]

lemma chunkQueryCount_allFormula (c : List (String × Bool)) (hne : c ≠ [])
    (h : ∀ p ∈ c, (p : String × Bool).2 = false) : chunkQueryCount c = 1 := by
  unfold chunkQueryCount
  rw [List.filter_eq_self.mpr (fun a ha => by simp [h a ha]),
    List.filter_eq_nil_iff.mpr (fun a ha => by simp [h a ha])]
  simp [List.isEmpty_iff, hne]

lemma chunkQueryCount_allCask (c : List (String × Bool)) (hne : c ≠ [])
    (h : ∀ p ∈ c, (p : String × Bool).2 = true) : chunkQueryCount c = 1 := by
  unfold chunkQueryCount
  rw [List.filter_eq_self.mpr (fun a ha => h a ha),
    List.filter_eq_nil_iff.mpr (fun a ha => by simp [h a ha])]
  simp [List.isEmpty_iff, hne]

lemma ceilDiv_zero {B : Nat} (hB : 0 < B) : ceilDiv 0 B = 0 := by
  unfold ceilDiv
  rw [Nat.zero_add, Nat.div_eq_of_lt (by omega)]

lemma batchQueryCount_single_kind_list {B : Nat} (hB : 0 < B)
    (l : List (String × Bool))
    (h : (∀ p ∈ l, (p : String × Bool).2 = false) ∨ (∀ p ∈ l, p.2 = true)) :
    batchQueryCount l B = ceilDiv l.length B := by
  unfold batchQueryCount
  rw [← chunkList_length hB l]
  apply sum_map_eq_length
  intro c hcm
  rcases h with h | h
  · exact chunkQueryCount_allFormula c (chunkList_ne_nil hB l c hcm)
      (fun p hp => h p (chunkList_subset hB l c hcm hp))
  · exact chunkQueryCount_allCask c (chunkList_ne_nil hB l c hcm)
      (fun p hp => h p (chunkList_subset hB l c hcm hp))

/-- C2 (amended): on a formulas-first installed list, the batch path issues
exactly ceil(F/B) + ceil(C/B) queries whenever no chunk straddles the
formula/cask boundary (B divides the formula count, or there are no casks;
the counterexample shows a straddling chunk is queried once per kind, one
more query than the claim counts); independently of that, every requested
identity occurrence appears in exactly one issued query group (their
concatenation is a permutation of the installed list), every issued group
is single-kind, and the query count equals the number of issued groups. -/
theorem C2_batch_query_count (fs cs : List (String × Bool))
    (hf : ∀ p ∈ fs, p.2 = false) (hc : ∀ p ∈ cs, p.2 = true)
    (B : Nat) (hB : 0 < B) :
    ((B ∣ fs.length ∨ cs = []) →
      batchQueryCount (fs ++ cs) B = ceilDiv fs.length B + ceilDiv cs.length B) ∧
    ((issuedBatches (fs ++ cs) B).flatten).Perm (fs ++ cs) ∧
    (∀ q ∈ issuedBatches (fs ++ cs) B,
      (∀ x ∈ q, (x : String × Bool).2 = false) ∨ (∀ x ∈ q, x.2 = true)) ∧
    batchQueryCount (fs ++ cs) B = (issuedBatches (fs ++ cs) B).length := by
  refine ⟨?_, issuedBatches_flatten_perm hB _, issuedBatches_single_kind _ _,
    batchQueryCount_eq_issued _ _⟩
  rintro (hdvd | rfl)
  · unfold batchQueryCount
    rw [chunkList_append_of_dvd hB fs hdvd cs, List.map_append, List.sum_append]
    have hfs := batchQueryCount_single_kind_list hB fs (Or.inl hf)
    have hcs := batchQueryCount_single_kind_list hB cs (Or.inr hc)
    unfold batchQueryCount at hfs hcs
    rw [hfs, hcs]
  · rw [List.append_nil, batchQueryCount_single_kind_list hB fs (Or.inl hf),
      List.length_nil, ceilDiv_zero hB, Nat.add_zero]

/-- Witness for C2's amended count at a concrete divisible split: two
formulas, one cask, batch size two. -/
theorem C2_batch_query_count_witness :
    batchQueryCount ([("a", false), ("b", false)] ++ [("c", true)]) 2 =
      ceilDiv ([("a", false), ("b", false)] : List (String × Bool)).length 2 +
        ceilDiv ([("c", true)] : List (String × Bool)).length 2 :=
  (C2_batch_query_count [("a", false), ("b", false)] [("c", true)]
    (by decide) (by decide) 2 (by decide)).1 (Or.inl (by decide))

/-- Counterexample to C2 as stated: one formula and two casks with batch
size two give a straddling chunk; the code issues 3 queries where the claim
counts ceil(1/2) + ceil(2/2) = 2. -/
theorem C2_counterexample :
    batchQueryCount [("a", false), ("b", true), ("c", true)] 2 ≠
      ceilDiv (([("a", false), ("b", true), ("c", true)] :
          List (String × Bool)).filter (fun p => !p.2)).length 2 +
        ceilDiv (([("a", false), ("b", true), ("c", true)] :
          List (String × Bool)).filter (fun p => p.2)).length 2 := by
  decide

/-- Oracle used in the C5 counterexample: formula queries resolve x to a
formula record with a runtime dependency, cask queries resolve x to a cask
record. -/
def c5Oracle : BatchOracle := fun _ k =>
  if k then .ok [{ key := "x", desc := some "cask x" }]
  else .ok [{ key := "x", desc := some "formula x", dependencies := some ["d"] }]

/-- Counterexample to C5 as stated: both identities (x, Formula) and
(x, Cask) resolve to records (both result slots are filled), yet after
resolution the catalog holds a single entry and it is the cask record —
the formula record is not represented. -/
theorem C5_counterexample :
    (parse_brew_info_batch c5Oracle [("x", false), ("x", true)]).map
        Option.isSome = [true, true] ∧
    (analyzeBatchCat c5Oracle [("x", false), ("x", true)] 50).length = 1 ∧
    (analyzeBatchCat c5Oracle [("x", false), ("x", true)] 50).map
        (fun e => e.2.is_cask) = [true] := by
  decide

/-- C9: a successfully resolved cask identity always carries empty build
and runtime dependency lists, whatever fields the external response had:
the single-query parser hard-codes them for casks, the batch cask group
does the same (on formulas-first lists, where the caller's pairing is
positional, every record paired with a cask identity comes from the cask
group), and so does the API parser. -/
theorem C9_cask_records_have_no_dependencies :
    (∀ (r : InfoResult) (nm : String) (p : PackageInfo),
        parseInfoOutput r nm true = some p →
          p.build_dependencies = [] ∧ p.runtime_dependencies = []) ∧
    (∀ (o : BatchOracle) (fs cs : List (String × Bool)),
        (∀ q ∈ fs, q.2 = false) → (∀ q ∈ cs, q.2 = true) →
        ∀ pr ∈ (fs ++ cs).zip (parse_brew_info_batch o (fs ++ cs)),
          (pr : (String × Bool) × Option PackageInfo).1.2 = true →
          ∀ p : PackageInfo, pr.2 = some p →
            p.build_dependencies = [] ∧ p.runtime_dependencies = []) ∧
    (∀ (nm : String) (formulas casks : List (String × Entry)) (p : PackageInfo),
        parse_api_data nm true formulas casks = some p →
          p.build_dependencies = [] ∧ p.runtime_dependencies = []) := by
  refine ⟨?_, ?_, ?_⟩
  · intro r nm p h
    cases r with
    | ok entries =>
      cases entries with
      | nil => cases h
      | cons e rest =>
        have hp : p = mkCaskInfo e nm := by
          have := h
          unfold parseInfoOutput at this
          simp at this
          exact this.symm
        rw [hp]
        exact ⟨rfl, rfl⟩
    | failed => cases h
    | empty => cases h
    | malformed => cases h
  · intro o fs cs hf hc pr hpr hk p hp
    rw [parse_batch_zip o fs cs hf hc] at hpr
    rcases List.mem_append.mp hpr with hmem | hmem
    · rcases List.mem_map.mp hmem with ⟨q, hq, rfl⟩
      have : q.2 = false := hf q hq
      rw [this] at hk
      cases hk
    · rcases List.mem_map.mp hmem with ⟨q, _, rfl⟩
      have hs := caskLookup_spec o (cs.map Prod.fst) q.1 p hp
      exact ⟨hs.2.2.1, hs.2.2.2⟩
  · intro nm formulas casks p h
    unfold parse_api_data at h
    rw [if_pos rfl] at h
    rcases Option.map_eq_some'.mp h with ⟨e, _, rfl⟩
    exact ⟨rfl, rfl⟩

lemma dictGet_nil {β : Type} (n : String) : dictGet ([] : List (String × β)) n = none :=
  rfl

lemma dictGet_dictInsert_self {β : Type} (d : List (String × β)) (k : String) (v : β) :
    dictGet (dictInsert d k v) k = some v := by
  induction d with
  | nil =>
    rw [dictInsert, dictGet, List.find?_cons_of_pos _ (by simp)]
    rfl
  | cons p xs ih =>
    obtain ⟨k', v'⟩ := p
    rw [dictInsert]
    by_cases hk : k' = k
    · rw [if_pos hk, dictGet, List.find?_cons_of_pos _ (by simp)]
      rfl
    · rw [if_neg hk, dictGet, List.find?_cons_of_neg _ (by simp [hk])]
      exact ih

lemma dictGet_dictInsert_ne {β : Type} (d : List (String × β)) {k n : String}
    (v : β) (hne : n ≠ k) : dictGet (dictInsert d k v) n = dictGet d n := by
  have hkn : k ≠ n := Ne.symm hne
  induction d with
  | nil =>
    rw [dictInsert, dictGet, List.find?_cons_of_neg _ (by simp [hkn])]
    rfl
  | cons p xs ih =>
    obtain ⟨k', v'⟩ := p
    rw [dictInsert]
    by_cases hk : k' = k
    · rw [if_pos hk, dictGet, List.find?_cons_of_neg _ (by simp [hkn]),
        dictGet, List.find?_cons_of_neg _ (by simp [hk, hkn])]
    · rw [if_neg hk]
      by_cases hk' : k' = n
      · rw [dictGet, List.find?_cons_of_pos _ (by simp [hk']),
          dictGet, List.find?_cons_of_pos _ (by simp [hk'])]
      · rw [dictGet, List.find?_cons_of_neg _ (by simp [hk']),
          dictGet, List.find?_cons_of_neg _ (by simp [hk'])]
        exact ih

lemma insertResults_append (cat : List (String × PackageInfo))
    (A bps : List ((String × Bool) × Option PackageInfo)) :
    insertResults cat (A ++ bps) = insertResults (insertResults cat A) bps := by
  rw [insertResults, insertResults, insertResults, List.foldl_append]

lemma insertResults_cons_some (cat : List (String × PackageInfo))
    (pr : (String × Bool) × Option PackageInfo)
    (rest : List ((String × Bool) × Option PackageInfo)) (v : PackageInfo)
    (h : pr.2 = some v) :
    insertResults cat (pr :: rest) = insertResults (dictInsert cat pr.1.1 v) rest := by
  obtain ⟨⟨pn, pk⟩, p2⟩ := pr
  simp only at h
  subst h
  rw [insertResults, insertResults, List.foldl_cons]

lemma dictGet_insertResults_ne (x : String)
    (prs : List ((String × Bool) × Option PackageInfo)) :
    ∀ cat : List (String × PackageInfo),
      (∀ pr ∈ prs, (pr : (String × Bool) × Option PackageInfo).1.1 ≠ x) →
      dictGet (insertResults cat prs) x = dictGet cat x := by
  induction prs with
  | nil => intro cat _; rfl
  | cons pr rest ih =>
    intro cat hne
    have hstep : insertResults cat (pr :: rest) =
        insertResults (match pr.2 with
          | some info => dictInsert cat pr.1.1 info
          | none => cat) rest := by
      rw [insertResults, insertResults, List.foldl_cons]
    rw [hstep]
    cases hpr : pr.2 with
    | none =>
      rw [ih _ (fun q hq => hne q (List.mem_cons_of_mem _ hq))]
    | some info =>
      show dictGet (insertResults (dictInsert cat pr.1.1 info) rest) x = dictGet cat x
      rw [ih _ (fun q hq => hne q (List.mem_cons_of_mem _ hq)),
        dictGet_dictInsert_ne _ _ (Ne.symm (hne pr (List.mem_cons_self _ _)))]

lemma foldl_chunks_no_write (o : BatchOracle) (x : String)
    (L : List (List (String × Bool)))
    (h : ∀ c ∈ L, ∀ p ∈ c, (p : String × Bool).1 ≠ x) :
    ∀ cat : List (String × PackageInfo),
      dictGet (L.foldl (processChunk o) cat) x = dictGet cat x := by
  induction L with
  | nil => intro cat; rfl
  | cons c L' ih =>
    intro cat
    rw [List.foldl_cons,
      ih (fun d hd => h d (List.mem_cons_of_mem _ hd)), processChunk,
      dictGet_insertResults_ne]
    intro pr hpr
    exact h c (List.mem_cons_self _ _) pr.1 (List.of_mem_zip hpr).1

lemma dictInsert_keys_nodup {β : Type} {d : List (String × β)} (k : String) (v : β)
    (hnd : (d.map Prod.fst).Nodup) :
    ((dictInsert d k v).map Prod.fst).Nodup := by
  induction d with
  | nil => simp [dictInsert]
  | cons p xs ih =>
    obtain ⟨k', v'⟩ := p
    rw [List.map_cons, List.nodup_cons] at hnd
    rw [dictInsert]
    by_cases hk : k' = k
    · subst hk
      simpa [List.nodup_cons] using hnd
    · rw [if_neg hk]
      rw [List.map_cons, List.nodup_cons]
      constructor
      · intro hmem
        rcases (mem_keys_dictInsert xs k k' v).mp hmem with rfl | h
        · exact hk rfl
        · exact hnd.1 h
      · exact ih hnd.2

lemma insertResults_keys_nodup (prs : List ((String × Bool) × Option PackageInfo)) :
    ∀ cat : List (String × PackageInfo), (cat.map Prod.fst).Nodup →
      ((insertResults cat prs).map Prod.fst).Nodup := by
  induction prs with
  | nil => intro cat h; exact h
  | cons pr rest ih =>
    intro cat hcat
    have hstep : insertResults cat (pr :: rest) =
        insertResults (match pr.2 with
          | some info => dictInsert cat pr.1.1 info
          | none => cat) rest := by
      rw [insertResults, insertResults, List.foldl_cons]
    rw [hstep]
    cases hpr : pr.2 with
    | none => exact ih _ hcat
    | some info => exact ih _ (dictInsert_keys_nodup _ _ hcat)

/-- The batch-path catalog is a genuine dict: its keys are unique.  This is
the structural invariant under which the other catalog claims are stated. -/
lemma analyzeBatchCat_keys_nodup (o : BatchOracle)
    (installed : List (String × Bool)) (B : Nat) :
    ((analyzeBatchCat o installed B).map Prod.fst).Nodup := by
  rw [analyzeBatchCat]
  have hgen : ∀ (L : List (List (String × Bool)))
      (cat : List (String × PackageInfo)), (cat.map Prod.fst).Nodup →
      ((L.foldl (processChunk o) cat).map Prod.fst).Nodup := by
    intro L
    induction L with
    | nil => intro cat h; exact h
    | cons c L' ih =>
      intro cat hcat
      rw [List.foldl_cons]
      exact ih _ (insertResults_keys_nodup _ _ hcat)
  exact hgen _ [] (by simp)

lemma dictGet_eq_of_mem_nodup {β : Type} {d : List (String × β)}
    (hnd : (d.map Prod.fst).Nodup) {n : String} {w : β} (hm : (n, w) ∈ d) :
    dictGet d n = some w := by
  induction d with
  | nil => cases hm
  | cons p xs ih =>
    obtain ⟨k', v'⟩ := p
    rw [List.map_cons, List.nodup_cons] at hnd
    rcases List.mem_cons.mp hm with heq | hm'
    · have h1 : k' = n := (congrArg Prod.fst heq).symm
      have h2 : v' = w := (congrArg Prod.snd heq).symm
      rw [dictGet, List.find?_cons_of_pos _ (by simp [h1])]
      rw [h2]
      rfl
    · have hk' : k' ≠ n := by
        intro h
        subst h
        exact hnd.1 (by simpa using List.mem_map_of_mem Prod.fst hm')
      rw [dictGet, List.find?_cons_of_neg _ (by simp [hk'])]
      exact ih hnd.2 hm'

/-- Processing one formulas-first chunk whose cask part contains (x, Cask)
with no later cask named x leaves the catalog bound at x to the record of
the chunk's (successful) cask query: the cask write is the last write to x
within the chunk, after any formula writes. -/
lemma processChunk_dictGet_cask (o : BatchOracle)
    (cat : List (String × PackageInfo)) (fs' u w : List (String × Bool))
    (x : String) (rC : PackageInfo)
    (hf' : ∀ p ∈ fs', p.2 = false)
    (hc' : ∀ p ∈ u ++ (x, true) :: w, p.2 = true)
    (hw : ∀ p ∈ w, (p : String × Bool).1 ≠ x)
    (hsucc : caskLookup o ((u ++ (x, true) :: w).map Prod.fst) x = some rC) :
    dictGet (processChunk o cat (fs' ++ (u ++ (x, true) :: w))) x = some rC := by
  rw [processChunk, parse_batch_zip o fs' (u ++ (x, true) :: w) hf' hc',
    insertResults_append, List.map_append, List.map_cons, insertResults_append,
    insertResults_cons_some _ _ _ rC hsucc]
  have hw2 : ∀ pr ∈ w.map (fun p =>
      (p, caskLookup o ((u ++ (x, true) :: w).map Prod.fst) p.1)),
      (pr : (String × Bool) × Option PackageInfo).1.1 ≠ x := by
    intro pr hpr
    rcases List.mem_map.mp hpr with ⟨p, hp, rfl⟩
    exact hw p hp
  rw [dictGet_insertResults_ne x _ _ hw2]
  exact dictGet_dictInsert_self _ _ rC

/-- Main induction: in a formulas-first installed list whose cask names are
distinct and contain x, and whose cask query for x's chunk resolves x to
rC, the batch loop leaves the catalog bound at x to rC, whatever catalog it
started from — all formula writes to x happen before the cask write, and no
write to x happens after it. -/
lemma caskWrite_wins (o : BatchOracle) (x : String) (B : Nat) (hB : 0 < B)
    (rC : PackageInfo) :
    ∀ l : List (String × Bool), ∀ fs cs : List (String × Bool), l = fs ++ cs →
      (∀ p ∈ fs, p.2 = false) → (∀ p ∈ cs, p.2 = true) →
      (cs.map Prod.fst).Nodup → (x, true) ∈ cs →
      (∀ c ∈ chunkList B l, (x, true) ∈ c →
        caskLookup o ((c.filter (fun p => p.2)).map Prod.fst) x = some rC) →
      ∀ cat : List (String × PackageInfo),
        dictGet ((chunkList B l).foldl (processChunk o) cat) x = some rC := by
  refine chunk_rec B hB ?_ ?_
  · rintro fs cs hl - - - hx - -
    rw [(List.append_eq_nil.mp hl.symm).2] at hx
    cases hx
  · intro l hlne ih fs cs hleq hf hc hnd hxc hsucc cat
    subst hleq
    have hlne' : fs ++ cs ≠ [] := hlne
    rw [chunkList_cons hB hlne', List.foldl_cons]
    have hsucc2 : ∀ c ∈ chunkList B ((fs ++ cs).drop B), (x, true) ∈ c →
        caskLookup o ((c.filter (fun p => p.2)).map Prod.fst) x = some rC := by
      intro c hcm
      refine hsucc c ?_
      rw [chunkList_cons hB hlne']
      exact List.mem_cons_of_mem _ hcm
    by_cases hx : (x, true) ∈ (fs ++ cs).drop B
    · have hdec : (fs ++ cs).drop B = fs.drop B ++ cs.drop (B - fs.length) :=
        List.drop_append_eq_append_drop
    -- the dual-kind cask occurrence survives into the tail: recurse
      refine ih (fs.drop B) (cs.drop (B - fs.length)) hdec
        (fun p hp => hf p (List.drop_subset _ _ hp))
        (fun p hp => hc p (List.drop_subset _ _ hp))
        (List.Nodup.sublist (List.Sublist.map Prod.fst (List.drop_sublist _ _)) hnd)
        ?_ hsucc2 (processChunk o cat ((fs ++ cs).take B))
      rw [hdec] at hx
      rcases List.mem_append.mp hx with h | h
      · have hcontra := hf _ (List.drop_subset _ _ h)
        simp at hcontra
      · exact h
    · -- the cask occurrence is in the current chunk: it writes last
      have hxtake : (x, true) ∈ (fs ++ cs).take B := by
        have hmem : (x, true) ∈ fs ++ cs := List.mem_append_right _ hxc
        rw [← List.take_append_drop B (fs ++ cs)] at hmem
        rcases List.mem_append.mp hmem with h | h
        · exact h
        · exact absurd h hx
      have htake_split : (fs ++ cs).take B = fs.take B ++ cs.take (B - fs.length) :=
        List.take_append_eq_append_take
      have hxcs' : (x, true) ∈ cs.take (B - fs.length) := by
        rw [htake_split] at hxtake
        rcases List.mem_append.mp hxtake with h | h
        · have hcontra := hf _ (List.take_subset _ _ h)
          simp at hcontra
        · exact h
      have hlenlt : fs.length < B := by
        by_contra hge
        push_neg at hge
        rw [Nat.sub_eq_zero_of_le hge, List.take_zero] at hxcs'
        cases hxcs'
      have hdec : (fs ++ cs).drop B = cs.drop (B - fs.length) := by
        rw [List.drop_append_eq_append_drop,
          List.drop_eq_nil_of_le (by omega), List.nil_append]
      -- u/w split of the chunk's cask part around the x occurrence
      obtain ⟨u, w, hsplit⟩ := List.append_of_mem hxcs'
      have hndtake : ((u ++ (x, true) :: w).map Prod.fst).Nodup := by
        rw [← hsplit]
        exact List.Nodup.sublist
          (List.Sublist.map Prod.fst (List.take_sublist _ _)) hnd
      have hw : ∀ p ∈ w, (p : String × Bool).1 ≠ x := by
        rw [List.map_append, List.map_cons] at hndtake
        have h1 := (List.nodup_append.mp hndtake).2.1
        rw [List.nodup_cons] at h1
        intro p hp heq
        apply h1.1
        rw [← heq]
        exact List.mem_map.mpr ⟨p, hp, rfl⟩
      -- the chunk's one cask query resolves x to rC
      have hc0mem : (fs ++ cs).take B ∈ chunkList B (fs ++ cs) := by
        rw [chunkList_cons hB hlne']
        exact List.mem_cons_self _ _
      have hq := hsucc _ hc0mem hxtake
      have hfiltr : (((fs ++ cs).take B).filter (fun p => p.2)) =
          u ++ (x, true) :: w := by
        rw [htake_split,
          filter_casks_append (fun p hp => hf p (List.take_subset _ _ hp))
            (fun p hp => hc p (List.take_subset _ _ hp)), hsplit]
      rw [hfiltr] at hq
      -- one chunk processed: catalog holds rC at x; the tail never writes x
      have hchunk : dictGet (processChunk o cat ((fs ++ cs).take B)) x = some rC := by
        rw [htake_split, hsplit]
        exact processChunk_dictGet_cask o cat (fs.take B) u w x rC
          (fun p hp => hf p (List.take_subset _ _ hp))
          (fun p hp => hc p (List.take_subset _ _ (hsplit ▸ hp))) hw hq
      have hnowrite : ∀ c ∈ chunkList B ((fs ++ cs).drop B), ∀ p ∈ c,
          (p : String × Bool).1 ≠ x := by
        intro c hcm p hp
        have hpl : p ∈ (fs ++ cs).drop B := chunkList_subset hB _ c hcm hp
        intro hpx
        have hpcs : p ∈ cs := by
          rw [hdec] at hpl
          exact List.drop_subset _ _ hpl
        have hpk : p.2 = true := hc p hpcs
        have hpeq : p = (x, true) := by
          obtain ⟨p1, p2⟩ := p
          simp only at hpx hpk
          rw [hpx, hpk]
        rw [hpeq] at hpl
        exact hx hpl
      rw [foldl_chunks_no_write o x _ hnowrite, hchunk]

/-- C5 (amended): in every formulas-first installed list that reports a
name x both as a formula and as a cask (with distinct cask names, as the
enumeration produces), and for every batch size, resolution treats the two
as independent identities: the chunk containing (x, Formula) pairs it with
the formula record its own formula-group query returns, and the chunk
containing (x, Cask) — the same chunk or a later one — pairs it with the
cask record of its cask-group query.  But the catalog is keyed by name
alone, and the cask write is the last write to x, so the catalog binds x to
the cask record and no entry keyed x holds anything else: both identities
cannot be simultaneously represented. -/
theorem C5_dual_kind_queried_independently_catalog_keeps_cask
    (o : BatchOracle) (x : String) (fs cs : List (String × Bool)) (B : Nat)
    (hB : 0 < B)
    (hf : ∀ p ∈ fs, p.2 = false) (hc : ∀ p ∈ cs, p.2 = true)
    (hndc : (cs.map Prod.fst).Nodup)
    (hxf : (x, false) ∈ fs) (hxc : (x, true) ∈ cs)
    (rF rC : PackageInfo)
    (hsf : ∀ c ∈ chunkList B (fs ++ cs), (x, false) ∈ c →
      formulaLookup o ((c.filter (fun p => !p.2)).map Prod.fst) x = some rF)
    (hsc : ∀ c ∈ chunkList B (fs ++ cs), (x, true) ∈ c →
      caskLookup o ((c.filter (fun p => p.2)).map Prod.fst) x = some rC) :
    (∃ c ∈ chunkList B (fs ++ cs),
        ((x, false), some rF) ∈ c.zip (parse_brew_info_batch o c)) ∧
    (∃ c ∈ chunkList B (fs ++ cs),
        ((x, true), some rC) ∈ c.zip (parse_brew_info_batch o c)) ∧
    rF.name = x ∧ rF.is_cask = false ∧ rC.name = x ∧ rC.is_cask = true ∧
    dictGet (analyzeBatchCat o (fs ++ cs) B) x = some rC ∧
    (∀ e ∈ analyzeBatchCat o (fs ++ cs) B,
        (e : String × PackageInfo).1 = x → e.2 = rC) := by
  have hsp : SplitsFormulasFirst (fs ++ cs) := ⟨fs, cs, rfl, hf, hc⟩
  have hxlf : (x, false) ∈ (chunkList B (fs ++ cs)).flatten := by
    rw [chunkList_flatten hB]
    exact List.mem_append_left _ hxf
  obtain ⟨cF, hcF, hmF⟩ := List.mem_flatten.mp hxlf
  obtain ⟨fsF, csF, hceqF, hfF, hcFk⟩ :=
    chunkList_splitsFormulasFirst hB _ hsp cF hcF
  have hxfsF : (x, false) ∈ fsF := by
    rw [hceqF] at hmF
    rcases List.mem_append.mp hmF with h | h
    · exact h
    · have hcontra := hcFk _ h
      simp at hcontra
  have hlookF : formulaLookup o (fsF.map Prod.fst) x = some rF := by
    have h := hsf cF hcF hmF
    rw [hceqF, filter_formulas_append hfF hcFk] at h
    exact h
  have part1 : ((x, false), some rF) ∈ cF.zip (parse_brew_info_batch o cF) := by
    rw [hceqF, parse_batch_zip o fsF csF hfF hcFk]
    apply List.mem_append_left
    refine List.mem_map.mpr ⟨(x, false), hxfsF, ?_⟩
    simp only [hlookF]
  have hxlc : (x, true) ∈ (chunkList B (fs ++ cs)).flatten := by
    rw [chunkList_flatten hB]
    exact List.mem_append_right _ hxc
  obtain ⟨cC, hcC, hmC⟩ := List.mem_flatten.mp hxlc
  obtain ⟨fsC, csC, hceqC, hfC, hcCk⟩ :=
    chunkList_splitsFormulasFirst hB _ hsp cC hcC
  have hxcsC : (x, true) ∈ csC := by
    rw [hceqC] at hmC
    rcases List.mem_append.mp hmC with h | h
    · have hcontra := hfC _ h
      simp at hcontra
    · exact h
  have hlookC : caskLookup o (csC.map Prod.fst) x = some rC := by
    have h := hsc cC hcC hmC
    rw [hceqC, filter_casks_append hfC hcCk] at h
    exact h
  have part2 : ((x, true), some rC) ∈ cC.zip (parse_brew_info_batch o cC) := by
    rw [hceqC, parse_batch_zip o fsC csC hfC hcCk]
    apply List.mem_append_right
    refine List.mem_map.mpr ⟨(x, true), hxcsC, ?_⟩
    simp only [hlookC]
  have hspecF := formulaLookup_spec o (fsF.map Prod.fst) x rF hlookF
  have hspecC := caskLookup_spec o (csC.map Prod.fst) x rC hlookC
  have hval : dictGet (analyzeBatchCat o (fs ++ cs) B) x = some rC := by
    rw [analyzeBatchCat]
    exact caskWrite_wins o x B hB rC (fs ++ cs) fs cs rfl hf hc hndc hxc hsc []
  refine ⟨⟨cF, hcF, part1⟩, ⟨cC, hcC, part2⟩, hspecF.1, hspecF.2, hspecC.1,
    hspecC.2.1, hval, ?_⟩
  intro e he hex
  obtain ⟨n, wv⟩ := e
  simp only at hex
  subst hex
  have hgot := dictGet_eq_of_mem_nodup
    (analyzeBatchCat_keys_nodup o (fs ++ cs) B) he
  rw [hval] at hgot
  exact (Option.some_inj.mp hgot).symm

/-- Witness for C5's amended statement: a four-package installed list in
which x's formula identity and cask identity fall into different chunks
(batch size 2); the catalog binds x to the cask record. -/
theorem C5_dual_kind_witness :
    dictGet (analyzeBatchCat c5Oracle
        [("a", false), ("x", false), ("x", true), ("b", true)] 2) "x" =
      some (mkCaskInfo { key := "x", desc := some "cask x" } "x") :=
  (C5_dual_kind_queried_independently_catalog_keeps_cask c5Oracle "x"
    [("a", false), ("x", false)] [("x", true), ("b", true)] 2 (by decide)
    (by decide) (by decide) (by decide) (by decide) (by decide)
    (mkFormulaInfo
      { key := "x", desc := some "formula x", dependencies := some ["d"] } "x")
    (mkCaskInfo { key := "x", desc := some "cask x" } "x")
    (by decide) (by decide)).2.2.2.2.2.2.1

end BrewInfo
